import Mathlib

/-!
Shallow embedding of the core of the `bittorrent-client` repository
(files `src/bittorrent/peer.py`, `src/bittorrent/client.py`,
`src/client/trackers.py`), together with theorems settling the frozen
claims about its specification.

Bytes are modelled as `Nat` (each value intended `< 256`), byte strings
as `List Nat`, Python sets as duplicate-free lists with membership-based
operations, `collections.defaultdict(list)` as an association list
`List (Piece × List PeerId)` whose absent keys read as `[]`, and the
peers stored by the coordinator as opaque identifiers `PeerId := Nat`
(the stored objects are `IpAndPort` dataclass values, compared by value).
SHA1 (Python `hashlib`, external to the repository) is an abstract
function parameter `sha1 : List Nat → List Nat`.
-/

namespace BT

/-- `int.from_bytes(l, 'big')`: big-endian interpretation of a byte string. -/
def fromBytesBE (l : List Nat) : Nat :=
  l.foldl (fun a b => a * 256 + b) 0

/-- `n.to_bytes(k, 'big')`: the `k` big-endian bytes of `n` (for `n < 256 ^ k`). -/
def toBytesBE : Nat → Nat → List Nat
  | 0, _ => []
  | k + 1, n => toBytesBE k (n / 256) ++ [n % 256]

/-! ## Bitfield (`src/bittorrent/peer.py`, class `Bitfield`)

The bitfield is its `value : bytearray`, modelled as `List Nat`. -/

/-- `Bitfield.set_piece`: auto-extend with zero bytes if the target byte is
past the end, then XOR the byte at `index / 8` with `1 << (7 - index % 8)`. -/
def setPiece (value : List Nat) (index : Nat) : List Nat :=
  let q := index / 8
  let r := index % 8
  let v1 := if value.length ≤ q then value ++ List.replicate (q - value.length + 1) 0 else value
  v1.set q ((v1.getD q 0) ^^^ (1 <<< (7 - r)))

/-- `Bitfield.has_piece`: `False` if the byte is past the end, else test
`mask & byte > 0` with `mask = 1 << (7 - index % 8)`. -/
def hasPiece (value : List Nat) (index : Nat) : Bool :=
  let q := index / 8
  let r := index % 8
  if value.length ≤ q then false
  else decide (0 < (1 <<< (7 - r)) &&& value.getD q 0)

/-! ## Peer message codec (`src/bittorrent/peer.py`, class `PeerMessage`) -/

/-- A decoded peer message: `message_id` (with `-1` the in-process
KEEP_ALIVE sentinel) and raw payload bytes. -/
structure PeerMsg where
  message_id : Int
  payload : List Nat
deriving DecidableEq, Repr

/-- `PeerMessage.KEEP_ALIVE = -1`. -/
def KEEP_ALIVE : Int := -1

/-- `PeerMessage.write`: frame `[len:u32_be][id:u8][payload]` where
`len = 1 + |payload|` (byte string sent on the socket). -/
def encodeMsg (m : PeerMsg) : List Nat :=
  toBytesBE 4 (1 + m.payload.length) ++ toBytesBE 1 m.message_id.toNat ++ m.payload

/-- `PeerMessage.read`: read a 4-byte big-endian size; a size of `0`
decodes as the KEEP_ALIVE sentinel; otherwise read `size` bytes, the
first being the id and the rest the payload.  `none` models a read that
blocks forever because the stream is too short. -/
def decodeMsg (stream : List Nat) : Option PeerMsg :=
  if stream.length < 4 then none
  else
    let size := fromBytesBE (stream.take 4)
    if size = 0 then some ⟨KEEP_ALIVE, []⟩
    else if stream.length < 4 + size then none
    else
      match stream.drop 4 with
      | [] => none
      | b :: rest => some ⟨(b : Int), rest.take (size - 1)⟩

/-! ## Swarm coordinator (`src/bittorrent/client.py`, class `Client`)

The coordinator's mutable state under its single lock: `work_queue` and
`work_done` (Python sets of `Piece`), and `workers_per_work`
(`defaultdict(Piece -> list)` of the peers attempting each piece). -/

/-- `Piece` dataclass of `src/bittorrent/torrent.py`: value object with
equality on `(index, size, sha1)`. -/
structure Piece where
  index : Nat
  size : Nat
  sha1 : List Nat
deriving DecidableEq, Repr

/-- Identity of a peer as stored by the coordinator (an `IpAndPort`
dataclass value, compared by value); opaque here. -/
abbrev PeerId := Nat

/-- Association-list lookup with the `defaultdict(list)` default `[]`. -/
def workersOf (m : List (Piece × List PeerId)) (p : Piece) : List PeerId :=
  ((m.find? (fun e => e.1 == p)).map (fun e => e.2)).getD []

/-- The key-creating side effect of reading `workers_per_work[p]` on a
`defaultdict`: insert `(p, [])` when `p` is not yet a key. -/
def touchKey (m : List (Piece × List PeerId)) (p : Piece) : List (Piece × List PeerId) :=
  if m.any (fun e => e.1 == p) then m else m ++ [(p, [])]

/-- `workers_per_work[p] = l` (key assumed present: every entry with key
`p` is overwritten). -/
def setKey (m : List (Piece × List PeerId)) (p : Piece) (l : List PeerId) :
    List (Piece × List PeerId) :=
  m.map (fun e => if e.1 == p then (p, l) else e)

/-- `del workers_per_work[p]`. -/
def delKey (m : List (Piece × List PeerId)) (p : Piece) : List (Piece × List PeerId) :=
  m.filter (fun e => e.1 != p)

/-- The coordinator's swarm state: `work_queue`, `work_done` (sets,
modelled as duplicate-free lists) and `workers_per_work`. -/
structure Swarm where
  queue : List Piece
  done : List Piece
  workers : List (Piece × List PeerId)
deriving DecidableEq, Repr

/-- The bitfield condition of `_get_work`:
`bitfield.size == 0 or bitfield.has_piece(work.index)`. -/
def bfCond (bf : List Nat) (p : Piece) : Bool :=
  bf.length == 0 || hasPiece bf p.index

/-- `Client._get_work(peer, bitfield)`, with `cap = max_peers_per_piece`.
`random.choice` is modelled by the oracle index `k`: the chosen element of
a nonempty candidate list `c` is `c[k % c.length]`, so quantifying over
`k` covers every possible random outcome.  The first candidate scan is
over the queue; reading `workers_per_work[work]` inside it creates keys
for every queue piece passing the bitfield test (`and` short-circuits).
When it is empty, the fallback scan takes any key of `workers_per_work`
with fewer than `cap` workers (ignoring queue and bitfield). -/
def getWork (s : Swarm) (peer : PeerId) (cap : Nat) (bf : List Nat) (k : Nat) :
    Option Piece × Swarm :=
  let qcand := s.queue.filter
    (fun w => bfCond bf w && decide ((workersOf s.workers w).length < cap))
  let workers1 := (s.queue.filter (bfCond bf)).foldl touchKey s.workers
  match qcand.get? (k % qcand.length) with
  | some w =>
      let m1 := touchKey workers1 w
      (some w, ⟨s.queue.filter (fun q => q ≠ w), s.done,
        setKey m1 w (workersOf m1 w ++ [peer])⟩)
  | none =>
      let fcand := (workers1.filter (fun e => decide (e.2.length < cap))).map (fun e => e.1)
      match fcand.get? (k % fcand.length) with
      | some w =>
          let m1 := touchKey workers1 w
          (some w, ⟨s.queue.filter (fun q => q ≠ w), s.done,
            setKey m1 w (workersOf m1 w ++ [peer])⟩)
      | none => (none, ⟨s.queue, s.done, workers1⟩)

/-- `Client._put_work(peer, work)`: `work_queue.add(work)`, then
`workers_per_work[work].remove(peer)`.  `list.remove` raises `ValueError`
when `peer` is absent; the returned flag is `true` on that error, and the
returned state is the state at the raise point (the queue insertion and
the `defaultdict` key creation have already happened). -/
def putWork (s : Swarm) (peer : PeerId) (work : Piece) : Swarm × Bool :=
  let queue1 := if work ∈ s.queue then s.queue else s.queue ++ [work]
  let m1 := touchKey s.workers work
  let l := workersOf m1 work
  if peer ∈ l then
    (⟨queue1, s.done, setKey m1 work (l.erase peer)⟩, false)
  else
    (⟨queue1, s.done, m1⟩, true)

/-- `Client._put_result(peer, piece, data)` (state part): discard `piece`
from the queue; for every recorded worker other than `peer` call
`worker.cancel()` — an attribute that exists neither on `Peer` (which
defines `cancel_work`) nor on the stored `IpAndPort` values, so the loop
raises `AttributeError` at the first such worker, before `del` and
`work_done.add` run; the returned flag is `true` on that error.  On
success the `workers_per_work` entry is deleted and `piece` is added to
`work_done`. -/
def putResult (s : Swarm) (peer : PeerId) (piece : Piece) : Swarm × Bool :=
  let queue1 := s.queue.filter (fun q => q ≠ piece)
  let m1 := touchKey s.workers piece
  let ws := workersOf m1 piece
  if ws.all (fun w => w == peer) then
    (⟨queue1, if piece ∈ s.done then s.done else s.done ++ [piece], delKey m1 piece⟩, false)
  else
    (⟨queue1, s.done, m1⟩, true)

/-! ## Peer session download loop (`src/bittorrent/peer.py`, `Peer._download`) -/

/-- One observable action of a peer session: the coordinator upcalls and
the messages it writes to the socket. -/
inductive Event where
  | sendUnchoke : Event
  | sendInterested : Event
  | putWorkEv : Event
  | putResultEv (data : List Nat) : Event
  | sendHave (index : Nat) : Event
  | sendRequest (index begin_ length : Nat) : Event
deriving DecidableEq, Repr

/-- The batch-request loop at the end of `Peer._download`: exactly
`batch` iterations, each computing `length = min(chunk_size, size - tmp)`
and emitting `REQUEST(index, tmp, length)`, then advancing `tmp` by
`length`.  Returns the `(index, begin, length)` payload triples. -/
def batchRequests (index size chunk : Nat) : Nat → Nat → List (Nat × Nat × Nat)
  | 0, _ => []
  | b + 1, tmp =>
      let len := min chunk (size - tmp)
      (index, tmp, len) :: batchRequests index size chunk b (tmp + len)

/-- Python `bytearray` slice assignment
`buffer[start : start + |data|] = data` (indices clamped to the length). -/
def writeSlice (buffer : List Nat) (start : Nat) (data : List Nat) : List Nat :=
  buffer.take (min start buffer.length) ++ data ++
    buffer.drop (min (start + data.length) buffer.length)

/-- The per-piece loop state of `Peer._download` (plus the session-level
`choked` flag and remote bitfield it reads and writes). -/
structure DlState where
  buffer : List Nat
  downloadedBytes : Nat
  shouldRequest : Bool
  requestsReceived : Nat
  choked : Bool
  bf : List Nat
deriving DecidableEq, Repr

/-- The message-dispatch part of one `Peer._download` loop iteration
(the `if/elif` chain on `message.message_id`): the emitted events and
`none` when the branch returns from `_download`. -/
def dlDispatch (work : Piece) (maxBatch : Nat) (sha1 : List Nat → List Nat)
    (msgId : Int) (payload : List Nat) (st : DlState) : List Event × Option DlState :=
  if msgId = 0 then ([], some { st with choked := true })
  else if msgId = 1 then ([], some { st with choked := false })
  else if msgId = 4 then ([], some { st with bf := setPiece st.bf (fromBytesBE payload) })
  else if msgId = 5 then
    if hasPiece payload work.index then ([], some { st with bf := payload })
    else ([Event.putWorkEv], none)
  else if msgId = 7 then
    let start := fromBytesBE ((payload.drop 4).take 4)
    let data := payload.drop 8
    let buffer1 := writeSlice st.buffer start data
    let downloaded1 := st.downloadedBytes + data.length
    let received1 := st.requestsReceived + 1
    let should1 := if received1 = maxBatch then true else st.shouldRequest
    if downloaded1 = work.size then
      if sha1 buffer1 = work.sha1 then
        ([Event.putResultEv buffer1, Event.sendHave work.index], none)
      else ([Event.putWorkEv], none)
    else
      ([], some { st with buffer := buffer1, downloadedBytes := downloaded1,
                          requestsReceived := received1, shouldRequest := should1 })
  else ([], some st)

/-- One full iteration of the `while True` loop of `Peer._download`:
dispatch the message, then the cancellation check (`cancelNow` is the
value of the session's cancel flag at that check), then the conditional
batch of REQUESTs. -/
def dlStep (work : Piece) (chunk maxBatch : Nat) (sha1 : List Nat → List Nat)
    (msgId : Int) (payload : List Nat) (cancelNow : Bool) (st : DlState) :
    List Event × Option DlState :=
  match dlDispatch work maxBatch sha1 msgId payload st with
  | (evs, none) => (evs, none)
  | (evs, some st1) =>
      if cancelNow then (evs, none)
      else if st1.shouldRequest && !st1.choked then
        (evs ++ (batchRequests work.index work.size chunk maxBatch
                   st1.downloadedBytes).map
                 (fun t => Event.sendRequest t.1 t.2.1 t.2.2),
         some { st1 with shouldRequest := false, requestsReceived := 0 })
      else (evs, some st1)

/-- The `while True` loop of `Peer._download`, driven by the finite list
of inbound messages `(message_id, payload, cancel-flag value)`; an
exhausted list models a read that never returns. -/
def dlLoop (work : Piece) (chunk maxBatch : Nat) (sha1 : List Nat → List Nat) :
    List (Int × List Nat × Bool) → DlState → List Event
  | [], _ => []
  | (msgId, payload, cancelNow) :: rest, st =>
      match dlStep work chunk maxBatch sha1 msgId payload cancelNow st with
      | (evs, none) => evs
      | (evs, some st1) => evs ++ dlLoop work chunk maxBatch sha1 rest st1

/-- `Peer._download(work)`: allocate a zero buffer of `work.size` bytes,
reset the counters and the cancel flag, send UNCHOKE and INTERESTED, and
enter the loop.  `choked0`/`bf0` are the session-level flag and remote
bitfield at entry. -/
def download (work : Piece) (chunk maxBatch : Nat) (sha1 : List Nat → List Nat)
    (msgs : List (Int × List Nat × Bool)) (choked0 : Bool) (bf0 : List Nat) : List Event :=
  Event.sendUnchoke :: Event.sendInterested ::
    dlLoop work chunk maxBatch sha1 msgs
      ⟨List.replicate work.size 0, 0, true, 0, choked0, bf0⟩

/-! ## Reachable coordinator states

States reachable from a fresh swarm (`work_queue` = all pieces) by any
interleaving of the three lock-protected coordinator operations.  A
`put_result` step records its `(piece, data)` delivery in a log; by
theorem `c1_session_delivers_only_verified` below (part one), every
delivery produced by a peer session satisfies `sha1 data = piece.sha1`,
which is the hypothesis of the `putr` step. -/
inductive Reach (sha1 : List Nat → List Nat) (pieces : List Piece) :
    Swarm → List (Piece × List Nat) → Prop where
  | init : Reach sha1 pieces ⟨pieces, [], []⟩ []
  | getw {s log} (peer cap : Nat) (bf : List Nat) (k : Nat) :
      Reach sha1 pieces s log → Reach sha1 pieces (getWork s peer cap bf k).2 log
  | putw {s log} (peer : PeerId) (w : Piece) :
      Reach sha1 pieces s log → Reach sha1 pieces (putWork s peer w).1 log
  | putr {s log} (peer : PeerId) (p : Piece) (d : List Nat) :
      Reach sha1 pieces s log → sha1 d = p.sha1 →
      Reach sha1 pieces (putResult s peer p).1 ((p, d) :: log)

/-! ## UDP tracker announce response (`src/client/trackers.py`,
`_AnnounceResponse.from_bytes`) -/

/-- `IpAndPort` dataclass of `src/client/ip.py`. -/
structure IpAndPort where
  ip : String
  port : Nat
deriving DecidableEq, Repr

/-- The parsed `_AnnounceResponse` dataclass. -/
structure AnnounceResponse where
  transaction_id : Nat
  interval : Nat
  leechers : Nat
  seeders : Nat
  peers : List IpAndPort
deriving DecidableEq, Repr

/-- `_AnnounceResponse._parse_ip`: `socket.inet_ntoa(struct.pack('!L', ip))`,
the dotted-quad rendering of a 32-bit integer. -/
def parseIp (ip : Nat) : String :=
  toString (ip / 2 ^ 24 % 256) ++ "." ++ toString (ip / 2 ^ 16 % 256) ++ "." ++
    toString (ip / 2 ^ 8 % 256) ++ "." ++ toString (ip % 256)

/-- The big-endian 32-bit field of `data` at byte offset `off`. -/
def u32At (data : List Nat) (off : Nat) : Nat :=
  fromBytesBE ((data.drop off).take 4)

/-- The big-endian 16-bit field of `data` at byte offset `off`. -/
def u16At (data : List Nat) (off : Nat) : Nat :=
  fromBytesBE ((data.drop off).take 2)

/-- `_AnnounceResponse.from_bytes`: a malformed length (`< 20` or
`(len - 20) % 6 ≠ 0`) yields the all-zero, no-peer response; then
`assert action == 1` (an `AssertionError`, modelled as `none`); then the
header fields at offsets 4..20 and one `(ip:u32, port:u16)` peer per
remaining 6 bytes. -/
def announceFromBytes (data : List Nat) : Option AnnounceResponse :=
  if data.length < 20 || (data.length - 20) % 6 != 0 then
    some ⟨0, 0, 0, 0, []⟩
  else
    let peersCount := (data.length - 20) / 6
    if u32At data 0 != 1 then none
    else
      some ⟨u32At data 4, u32At data 8, u32At data 12, u32At data 16,
        (List.range peersCount).map
          (fun i => ⟨parseIp (u32At data (20 + 6 * i)), u16At data (24 + 6 * i)⟩)⟩

/-! ## Supporting lemmas -/

theorem toBytesBE_length (k : Nat) : ∀ n, (toBytesBE k n).length = k := by
  induction k with
  | zero => intro n; rfl
  | succ k ih => intro n; simp [toBytesBE, ih]

theorem fromBytesBE_append_one (l : List Nat) (b : Nat) :
    fromBytesBE (l ++ [b]) = fromBytesBE l * 256 + b := by
  simp [fromBytesBE]

theorem fromBytesBE_toBytesBE (k : Nat) : ∀ n, n < 256 ^ k →
    fromBytesBE (toBytesBE k n) = n := by
  induction k with
  | zero =>
      intro n h
      simp only [pow_zero, Nat.lt_one_iff] at h
      simp [toBytesBE, fromBytesBE, h]
  | succ k ih =>
      intro n h
      have hd : n / 256 < 256 ^ k := by
        rw [Nat.div_lt_iff_lt_mul (by norm_num)]
        calc n < 256 ^ (k + 1) := h
        _ = 256 ^ k * 256 := by rw [pow_succ]
      rw [toBytesBE, fromBytesBE_append_one, ih _ hd]
      omega

theorem land_two_pow_pos_iff (k b : Nat) : (0 < (1 <<< k) &&& b) ↔ b.testBit k := by
  rw [Nat.shiftLeft_eq, one_mul, Nat.two_pow_and]
  cases h : b.testBit k <;> simp

/-- Characterization of `hasPiece` through `Nat.testBit`. -/
theorem hasPiece_iff (v : List Nat) (j : Nat) :
    hasPiece v j = true ↔
      j / 8 < v.length ∧ (v.getD (j / 8) 0).testBit (7 - j % 8) = true := by
  unfold hasPiece
  by_cases h : v.length ≤ j / 8
  · simp only [if_pos h]
    constructor
    · intro hc; exact absurd hc (by simp)
    · intro hc; omega
  · simp only [if_neg h, decide_eq_true_eq, land_two_pow_pos_iff]
    constructor
    · intro hb; exact ⟨by omega, hb⟩
    · intro hb; exact hb.2

theorem getD_len_le (l : List Nat) (n : Nat) (h : l.length ≤ n) : l.getD n 0 = 0 := by
  simp [List.getD_eq_getElem?_getD, List.getElem?_len_le h]

theorem setPiece_length (v : List Nat) (i : Nat) :
    (setPiece v i).length = if v.length ≤ i / 8 then i / 8 + 1 else v.length := by
  simp only [setPiece]
  by_cases h : v.length ≤ i / 8
  · rw [if_pos h, if_pos h]
    simp only [List.length_set, List.length_append, List.length_replicate]
    omega
  · rw [if_neg h, if_neg h, List.length_set]

theorem setPiece_getD_eq (v : List Nat) (i : Nat) :
    (setPiece v i).getD (i / 8) 0 = v.getD (i / 8) 0 ^^^ (1 <<< (7 - i % 8)) := by
  simp only [setPiece]
  by_cases h : v.length ≤ i / 8
  · rw [if_pos h]
    have hlt : i / 8 < (v ++ List.replicate (i / 8 - v.length + 1) 0).length := by
      simp only [List.length_append, List.length_replicate]; omega
    have hz : (v ++ List.replicate (i / 8 - v.length + 1) 0).getD (i / 8) 0 = 0 := by
      rw [List.getD_eq_getElem?_getD, List.getElem?_append_right h,
        List.getElem?_replicate_of_lt (by omega)]
      rfl
    rw [List.getD_eq_getElem?_getD, List.getElem?_set_self hlt, hz,
      getD_len_le v _ h]
    rfl
  · rw [if_neg h]
    have hlt : i / 8 < v.length := by omega
    rw [List.getD_eq_getElem?_getD, List.getElem?_set_self hlt]
    rfl

theorem setPiece_getD_ne (v : List Nat) (i q : Nat) (h : q ≠ i / 8) :
    (setPiece v i).getD q 0 = v.getD q 0 := by
  simp only [setPiece]
  by_cases hx : v.length ≤ i / 8
  · rw [if_pos hx, List.getD_eq_getElem?_getD, List.getElem?_set_ne (fun he => h he.symm)]
    by_cases hq : q < v.length
    · rw [List.getElem?_append_left hq, List.getD_eq_getElem?_getD]
    · rw [List.getElem?_append_right (by omega), List.getElem?_replicate,
        List.getD_eq_getElem?_getD, List.getElem?_len_le (l := v) (by omega)]
      split <;> rfl
  · rw [if_neg hx, List.getD_eq_getElem?_getD, List.getElem?_set_ne (fun he => h he.symm),
      List.getD_eq_getElem?_getD]

theorem mask_testBit_ne (r s : Nat) (h : r ≠ s) : (1 <<< r).testBit s = false := by
  rw [Nat.shiftLeft_eq, one_mul]
  exact Nat.testBit_two_pow_of_ne h

/-! ## C6: Bitfield set/has -/

/-- C6: for every bitfield and every index `i` whose bit is unset
(including `i` past the current byte length, where the bitfield
auto-extends with zero bytes), after `set_piece(i)`: `has_piece(i)` is
true, `has_piece(j)` is unchanged for every `j ≠ i`, bit `i` lives in
byte `i / 8` (no other byte changes), and that byte is the old byte (0
when previously absent) XOR the mask `1 <<< (7 - i % 8)`. -/
theorem c6_bitfield_set_has (v : List Nat) (i : Nat) (h : hasPiece v i = false) :
    hasPiece (setPiece v i) i = true ∧
    (∀ j, j ≠ i → hasPiece (setPiece v i) j = hasPiece v j) ∧
    (∀ q, q ≠ i / 8 → (setPiece v i).getD q 0 = v.getD q 0) ∧
    (setPiece v i).getD (i / 8) 0 = v.getD (i / 8) 0 ^^^ (1 <<< (7 - i % 8)) := by
  have hlen : (setPiece v i).length = if v.length ≤ i / 8 then i / 8 + 1 else v.length :=
    setPiece_length v i
  have hold : (v.getD (i / 8) 0).testBit (7 - i % 8) = false := by
    by_cases hq : v.length ≤ i / 8
    · rw [getD_len_le v _ hq]; exact Nat.zero_testBit _
    · by_contra hb
      rw [Bool.not_eq_false] at hb
      rw [(hasPiece_iff v i).mpr ⟨by omega, hb⟩] at h
      simp at h
  refine ⟨?_, ?_, setPiece_getD_ne v i, setPiece_getD_eq v i⟩
  · rw [hasPiece_iff]
    refine ⟨by rw [hlen]; split <;> omega, ?_⟩
    rw [setPiece_getD_eq, Nat.testBit_xor, hold, Nat.shiftLeft_eq, one_mul,
      Nat.testBit_two_pow_self]
    rfl
  · intro j hj
    rw [Bool.eq_iff_iff, hasPiece_iff, hasPiece_iff]
    by_cases hqj : j / 8 = i / 8
    · have h7 : 7 - j % 8 ≠ 7 - i % 8 := by omega
      rw [hqj, setPiece_getD_eq, Nat.testBit_xor,
        mask_testBit_ne _ _ (fun he => h7 he.symm), Bool.xor_false]
      by_cases hext : v.length ≤ i / 8
      · have hz : v.getD (i / 8) 0 = 0 := getD_len_le v _ hext
        rw [hz]
        simp [Nat.zero_testBit]
      · rw [hlen, if_neg hext]
    · rw [setPiece_getD_ne v i _ hqj]
      by_cases hlt : j / 8 < v.length
      · have : j / 8 < (setPiece v i).length := by rw [hlen]; split <;> omega
        simp [hlt, this]
      · have hz : v.getD (j / 8) 0 = 0 := getD_len_le v _ (by omega)
        rw [hz]
        simp [Nat.zero_testBit]

/-- Witness for C6 at the empty bitfield and index 3. -/
theorem c6_bitfield_set_has_witness :
    hasPiece [] 3 = false ∧
    (hasPiece (setPiece [] 3) 3 = true ∧
     (∀ j, j ≠ 3 → hasPiece (setPiece [] 3) j = hasPiece [] j) ∧
     (∀ q, q ≠ 3 / 8 → (setPiece [] 3).getD q 0 = ([] : List Nat).getD q 0) ∧
     (setPiece [] 3).getD (3 / 8) 0 = ([] : List Nat).getD (3 / 8) 0 ^^^ (1 <<< (7 - 3 % 8))) :=
  ⟨by decide, c6_bitfield_set_has [] 3 (by decide)⟩

/-! ## C7: peer message codec round-trip -/

/-- C7: for every peer message with id in `0..8` and arbitrary payload
(framable in a u32 length), decoding the encoded frame
`[len:u32_be][id:u8][payload]` yields the same id and payload, and a
frame whose length prefix is 0 decodes as the KEEP-ALIVE sentinel. -/
theorem c7_codec_roundtrip (id : Int) (payload : List Nat)
    (h0 : 0 ≤ id) (h8 : id ≤ 8) (hlen : 1 + payload.length < 256 ^ 4) :
    decodeMsg (encodeMsg ⟨id, payload⟩) = some ⟨id, payload⟩ ∧
    ∀ rest : List Nat, decodeMsg (0 :: 0 :: 0 :: 0 :: rest) = some ⟨KEEP_ALIVE, []⟩ := by
  constructor
  · have h4 : (toBytesBE 4 (1 + payload.length)).length = 4 := toBytesBE_length 4 _
    have hstream : encodeMsg ⟨id, payload⟩ =
        toBytesBE 4 (1 + payload.length) ++ ((id.toNat % 256) :: payload) := by
      simp [encodeMsg, toBytesBE]
    have htake : (toBytesBE 4 (1 + payload.length) ++ ((id.toNat % 256) :: payload)).take 4
        = toBytesBE 4 (1 + payload.length) := List.take_left' h4
    have hdrop : (toBytesBE 4 (1 + payload.length) ++ ((id.toNat % 256) :: payload)).drop 4
        = (id.toNat % 256) :: payload := List.drop_left' h4
    have hsize : fromBytesBE (toBytesBE 4 (1 + payload.length)) = 1 + payload.length :=
      fromBytesBE_toBytesBE 4 _ hlen
    have hlen4 : (toBytesBE 4 (1 + payload.length) ++ ((id.toNat % 256) :: payload)).length
        = 5 + payload.length := by
      simp [h4]; omega
    have htoNat : id.toNat ≤ 8 := by omega
    have hid : ((id.toNat % 256 : Nat) : Int) = id := by
      rw [Nat.mod_eq_of_lt (by omega), Int.toNat_of_nonneg h0]
    rw [hstream]
    simp only [decodeMsg, htake, hdrop, hsize, hlen4]
    rw [if_neg (by omega), if_neg (by omega), if_neg (by omega)]
    simp [hid]
  · intro rest
    simp [decodeMsg, fromBytesBE]

/-- Witness for C7 at id 4 and payload `[1, 2, 3]`. -/
theorem c7_codec_roundtrip_witness :
    (0 : Int) ≤ 4 ∧ (4 : Int) ≤ 8 ∧ 1 + [1, 2, 3].length < 256 ^ 4 ∧
    (decodeMsg (encodeMsg ⟨4, [1, 2, 3]⟩) = some ⟨4, [1, 2, 3]⟩ ∧
     ∀ rest : List Nat, decodeMsg (0 :: 0 :: 0 :: 0 :: rest) = some ⟨KEEP_ALIVE, []⟩) :=
  ⟨by decide, by decide, by norm_num,
   c7_codec_roundtrip 4 [1, 2, 3] (by decide) (by decide) (by norm_num)⟩

/-! ## C8: the REQUEST batch -/

theorem batchRequests_length (index size chunk : Nat) :
    ∀ B tmp, (batchRequests index size chunk B tmp).length = B := by
  intro B
  induction B with
  | zero => intro tmp; rfl
  | succ b ih => intro tmp; simp [batchRequests, ih]

theorem batchRequests_mem (index size chunk : Nat) :
    ∀ B tmp, ∀ e ∈ batchRequests index size chunk B tmp,
      e.1 = index ∧ e.2.2 = min chunk (size - e.2.1) ∧
      (tmp ≤ size → tmp ≤ e.2.1 ∧ e.2.1 ≤ size) := by
  intro B
  induction B with
  | zero => intro tmp e he; simp [batchRequests] at he
  | succ b ih =>
      intro tmp e he
      rw [batchRequests] at he
      rcases List.mem_cons.mp he with h | h
      · subst h
        exact ⟨rfl, rfl, fun ht => ⟨le_refl _, ht⟩⟩
      · have hnext : tmp + min chunk (size - tmp) ≤ size ∨ ¬tmp ≤ size := by
          by_cases ht : tmp ≤ size
          · left
            have := Nat.min_le_right chunk (size - tmp)
            omega
          · right; exact ht
        have := ih _ _ h
        refine ⟨this.1, this.2.1, fun ht => ?_⟩
        rcases hnext with hn | hn
        · have h2 := this.2.2 hn
          constructor
          · calc tmp ≤ tmp + min chunk (size - tmp) := Nat.le_add_right _ _
            _ ≤ e.2.1 := h2.1
          · exact h2.2
        · exact absurd ht hn

/-- C8 (amended): the batch issued by `Peer._download` contains exactly
`B` REQUEST triples, starting at offset `downloaded`; every one has
length `min chunk (size - begin)` and begins within `size`; every
nonzero-length block has length `chunk` unless it ends exactly at
`size`; but when the cursor reaches `size` early, the remaining REQUESTs
of the batch are issued with length 0 at offset `size` (for positive
`chunk`). -/
theorem c8_request_batch (index size chunk B downloaded : Nat) (hd : downloaded ≤ size) :
    (batchRequests index size chunk B downloaded).length = B ∧
    (0 < B → (batchRequests index size chunk B downloaded).head? =
        some (index, downloaded, min chunk (size - downloaded))) ∧
    ∀ e ∈ batchRequests index size chunk B downloaded,
      e.1 = index ∧
      e.2.2 = min chunk (size - e.2.1) ∧
      e.2.1 ≤ size ∧
      e.2.2 ≤ chunk ∧
      (0 < e.2.2 → e.2.2 = chunk ∨ e.2.1 + e.2.2 = size) ∧
      (e.2.2 = 0 → 0 < chunk → e.2.1 = size) := by
  refine ⟨batchRequests_length index size chunk B downloaded, ?_, ?_⟩
  · intro hB
    match B, hB with
    | b + 1, _ => rfl
  · intro e he
    have h := batchRequests_mem index size chunk B downloaded e he
    have hb := (h.2.2 hd).2
    refine ⟨h.1, h.2.1, hb, ?_, ?_, ?_⟩
    · rw [h.2.1]; exact Nat.min_le_left _ _
    · intro hpos
      rcases Nat.le_total chunk (size - e.2.1) with hc | hc
      · left; rw [h.2.1]; exact Nat.min_eq_left hc
      · right
        rw [h.2.1, Nat.min_eq_right hc]
        have : 0 < size - e.2.1 := by
          rw [h.2.1, Nat.min_eq_right hc] at hpos; exact hpos
        omega
    · intro hz hc
      rw [h.2.1] at hz
      rcases Nat.min_eq_zero_iff.mp hz with h0 | h0
      · omega
      · omega

/-- Witness for C8 at a two-chunk piece with a short final block. -/
theorem c8_request_batch_witness :
    (0 : Nat) ≤ 20000 ∧
    ((batchRequests 7 20000 16384 3 0).length = 3 ∧
     (0 < 3 → (batchRequests 7 20000 16384 3 0).head? = some (7, 0, min 16384 (20000 - 0))) ∧
     ∀ e ∈ batchRequests 7 20000 16384 3 0,
       e.1 = 7 ∧
       e.2.2 = min 16384 (20000 - e.2.1) ∧
       e.2.1 ≤ 20000 ∧
       e.2.2 ≤ 16384 ∧
       (0 < e.2.2 → e.2.2 = 16384 ∨ e.2.1 + e.2.2 = 20000) ∧
       (e.2.2 = 0 → 0 < 16384 → e.2.1 = 20000)) :=
  ⟨by decide, c8_request_batch 7 20000 16384 3 0 (by decide)⟩

/-- C8 counterexample: with `chunk = 2 ^ 14`, a batch of `B = 2` for a
piece of exactly one chunk (size `2 ^ 14`, `downloaded = 0`) contains the
REQUEST `(0, 16384, 0)` — a zero-length request at an offset equal to the
piece size, refuting "no REQUEST has length 0". -/
theorem c8_zero_length_request_counterexample :
    batchRequests 0 16384 16384 2 0 = [(0, 0, 16384), (0, 16384, 0)] ∧
    (0, 16384, 0) ∈ batchRequests 0 16384 16384 2 0 := by
  constructor
  · rfl
  · decide

/-! ## C9: UDP announce response parsing -/

/-- C9: a byte string whose length is `< 20` or with `(length - 20) % 6 ≠ 0`
is rejected by `_AnnounceResponse.from_bytes` (the code's rejection is the
all-zero response carrying no peers); a well-formed input of length
`20 + 6 k` with `action = 1` parses to the transaction id from bytes 4..8
and exactly `k` peer endpoints, the `j`-th built from the u32 IP at offset
`20 + 6 j` rendered as a dotted quad and the big-endian u16 port at offset
`24 + 6 j`. -/
theorem c9_announce_parse (data : List Nat) (k : Nat) :
    ((data.length < 20 ∨ (data.length - 20) % 6 ≠ 0) →
       announceFromBytes data = some ⟨0, 0, 0, 0, []⟩) ∧
    (data.length = 20 + 6 * k → u32At data 0 = 1 →
       ∃ r, announceFromBytes data = some r ∧
         r.transaction_id = u32At data 4 ∧
         r.interval = u32At data 8 ∧
         r.leechers = u32At data 12 ∧
         r.seeders = u32At data 16 ∧
         r.peers.length = k ∧
         ∀ j, j < k → r.peers[j]? =
           some ⟨parseIp (u32At data (20 + 6 * j)), u16At data (24 + 6 * j)⟩) := by
  constructor
  · intro h
    have hb : (decide (data.length < 20) || ((data.length - 20) % 6 != 0)) = true := by
      rcases h with h | h
      · simp [h]
      · simp [h]
    simp only [announceFromBytes]
    rw [if_pos hb]
  · intro hlen hact
    have h1 : ¬data.length < 20 := by omega
    have h2 : (data.length - 20) % 6 = 0 := by omega
    have hcnt : (data.length - 20) / 6 = k := by omega
    refine ⟨⟨u32At data 4, u32At data 8, u32At data 12, u32At data 16,
      (List.range k).map
        (fun i => ⟨parseIp (u32At data (20 + 6 * i)), u16At data (24 + 6 * i)⟩)⟩,
      ?_, rfl, rfl, rfl, rfl, by simp, ?_⟩
    · simp only [announceFromBytes]
      rw [if_neg (by simp [h1, h2]), hcnt, if_neg (by simp [hact])]
    · intro j hj
      simp [List.getElem?_map, List.getElem?_range hj]

/-- Witness for C9: a malformed 3-byte input, and a well-formed 26-byte
response (`k = 1`) with transaction id 5 and peer `1.2.3.4:80`. -/
theorem c9_announce_parse_witness :
    (announceFromBytes [1, 2, 3] = some ⟨0, 0, 0, 0, []⟩) ∧
    (∃ r, announceFromBytes [0, 0, 0, 1, 0, 0, 0, 5, 0, 0, 0, 0, 0, 0, 0, 0, 0, 0, 0, 0,
         1, 2, 3, 4, 0, 80] = some r ∧
       r.transaction_id = u32At [0, 0, 0, 1, 0, 0, 0, 5, 0, 0, 0, 0, 0, 0, 0, 0, 0, 0, 0, 0,
         1, 2, 3, 4, 0, 80] 4 ∧
       r.interval = u32At [0, 0, 0, 1, 0, 0, 0, 5, 0, 0, 0, 0, 0, 0, 0, 0, 0, 0, 0, 0,
         1, 2, 3, 4, 0, 80] 8 ∧
       r.leechers = u32At [0, 0, 0, 1, 0, 0, 0, 5, 0, 0, 0, 0, 0, 0, 0, 0, 0, 0, 0, 0,
         1, 2, 3, 4, 0, 80] 12 ∧
       r.seeders = u32At [0, 0, 0, 1, 0, 0, 0, 5, 0, 0, 0, 0, 0, 0, 0, 0, 0, 0, 0, 0,
         1, 2, 3, 4, 0, 80] 16 ∧
       r.peers.length = 1 ∧
       ∀ j, j < 1 → r.peers[j]? =
         some ⟨parseIp (u32At [0, 0, 0, 1, 0, 0, 0, 5, 0, 0, 0, 0, 0, 0, 0, 0, 0, 0, 0, 0,
           1, 2, 3, 4, 0, 80] (20 + 6 * j)),
           u16At [0, 0, 0, 1, 0, 0, 0, 5, 0, 0, 0, 0, 0, 0, 0, 0, 0, 0, 0, 0,
           1, 2, 3, 4, 0, 80] (24 + 6 * j)⟩) :=
  ⟨(c9_announce_parse [1, 2, 3] 0).1 (Or.inl (by decide)),
   (c9_announce_parse [0, 0, 0, 1, 0, 0, 0, 5, 0, 0, 0, 0, 0, 0, 0, 0, 0, 0, 0, 0,
     1, 2, 3, 4, 0, 80] 1).2 (by decide) (by decide)⟩

/-! ## Association-list and coordinator-component lemmas -/

theorem workersOf_eq_nil_of_no_key (m : List (Piece × List PeerId)) (p : Piece)
    (h : ∀ e ∈ m, e.1 ≠ p) : workersOf m p = [] := by
  unfold workersOf
  rw [List.find?_eq_none.mpr (fun e he => by simpa using h e he)]
  rfl

theorem workersOf_touchKey (m : List (Piece × List PeerId)) (q p : Piece) :
    workersOf (touchKey m q) p = workersOf m p := by
  unfold touchKey
  split
  · rfl
  · next hany =>
    unfold workersOf
    rw [List.find?_append]
    rcases hf : m.find? (fun e => e.1 == p) with _ | e
    · rcases hg : ([(q, ([] : List PeerId))] : List (Piece × List PeerId)).find?
          (fun e => e.1 == p) with _ | e
      · simp [hf, hg]
      · have h1 : e ∈ [(q, ([] : List PeerId))] := List.mem_of_find?_eq_some hg
        have h2 : e = (q, []) := by simpa using h1
        simp [hf, hg, h2]
    · simp [hf]

theorem workersOf_foldl_touchKey (ps : List Piece) :
    ∀ m p, workersOf (ps.foldl touchKey m) p = workersOf m p := by
  induction ps with
  | nil => intro m p; rfl
  | cons q t ih =>
      intro m p
      rw [List.foldl_cons, ih, workersOf_touchKey]

theorem mem_touchKey (m : List (Piece × List PeerId)) (q : Piece) (e : Piece × List PeerId)
    (h : e ∈ touchKey m q) : e ∈ m ∨ (e = (q, []) ∧ ∀ x ∈ m, x.1 ≠ q) := by
  unfold touchKey at h
  split at h
  · exact Or.inl h
  · next hany =>
    rcases List.mem_append.mp h with h | h
    · exact Or.inl h
    · right
      refine ⟨by simpa using h, fun x hx hxq => hany ?_⟩
      rw [List.any_eq_true]
      exact ⟨x, hx, by simp [hxq]⟩

theorem self_subset_touchKey (m : List (Piece × List PeerId)) (q : Piece)
    (e : Piece × List PeerId) (h : e ∈ m) : e ∈ touchKey m q := by
  unfold touchKey
  split
  · exact h
  · exact List.mem_append_left _ h

theorem self_subset_foldl_touchKey (ps : List Piece) :
    ∀ m (e : Piece × List PeerId), e ∈ m → e ∈ ps.foldl touchKey m := by
  induction ps with
  | nil => intro m e h; exact h
  | cons q t ih =>
      intro m e h
      rw [List.foldl_cons]
      exact ih _ _ (self_subset_touchKey m q e h)

theorem mem_foldl_touchKey (ps : List Piece) :
    ∀ m (e : Piece × List PeerId), e ∈ ps.foldl touchKey m →
      e ∈ m ∨ (e.2 = [] ∧ e.1 ∈ ps ∧ ∀ x ∈ m, x.1 ≠ e.1) := by
  induction ps with
  | nil => intro m e h; exact Or.inl h
  | cons q t ih =>
      intro m e h
      rw [List.foldl_cons] at h
      rcases ih _ _ h with h1 | h1
      · rcases mem_touchKey m q e h1 with h2 | h2
        · exact Or.inl h2
        · right
          rw [h2.1]
          exact ⟨rfl, by simp, fun x hx => by
            have := h2.2 x hx
            simpa [h2.1] using this⟩
      · right
        refine ⟨h1.1, List.mem_cons_of_mem _ h1.2.1, fun x hx => ?_⟩
        exact h1.2.2 x (self_subset_touchKey m q x hx)

theorem workersOf_of_mem (m : List (Piece × List PeerId)) (p : Piece) (l : List PeerId)
    (hm : (p, l) ∈ m) (hnd : (m.map (fun e => e.1)).Nodup) : workersOf m p = l := by
  induction m with
  | nil => simp at hm
  | cons e t ih =>
      rw [List.map_cons, List.nodup_cons] at hnd
      rcases List.mem_cons.mp hm with h | h
      · unfold workersOf
        rw [← h]
        simp [List.find?]
      · have hne : e.1 ≠ p := by
          intro he
          exact hnd.1 (he ▸ (List.mem_map.mpr ⟨(p, l), h, rfl⟩))
        unfold workersOf
        rw [List.find?_cons_of_neg _ (by simpa using hne)]
        exact ih h hnd.2

theorem workersOf_delKey (m : List (Piece × List PeerId)) (p : Piece) :
    workersOf (delKey m p) p = [] := by
  apply workersOf_eq_nil_of_no_key
  intro e he
  have := List.of_mem_filter he
  simpa using this

theorem getWork_done (s : Swarm) (peer : PeerId) (cap : Nat) (bf : List Nat) (k : Nat) :
    (getWork s peer cap bf k).2.done = s.done := by
  simp only [getWork]
  split
  · rfl
  · split <;> rfl

theorem getWork_queue_subset (s : Swarm) (peer : PeerId) (cap : Nat) (bf : List Nat) (k : Nat)
    (p : Piece) (hp : p ∈ (getWork s peer cap bf k).2.queue) : p ∈ s.queue := by
  simp only [getWork] at hp
  split at hp
  · exact (List.mem_filter.mp hp).1
  · split at hp
    · exact (List.mem_filter.mp hp).1
    · exact hp

theorem putWork_done (s : Swarm) (peer : PeerId) (w : Piece) :
    (putWork s peer w).1.done = s.done := by
  simp only [putWork]
  split <;> rfl

theorem putWork_queue (s : Swarm) (peer : PeerId) (w : Piece) :
    (putWork s peer w).1.queue = if w ∈ s.queue then s.queue else s.queue ++ [w] := by
  simp only [putWork]
  split <;> rfl

theorem putResult_queue (s : Swarm) (peer : PeerId) (piece : Piece) :
    (putResult s peer piece).1.queue = s.queue.filter (fun q => q ≠ piece) := by
  simp only [putResult]
  split <;> rfl

theorem putResult_done_sub (s : Swarm) (peer : PeerId) (piece : Piece) (p : Piece)
    (hp : p ∈ (putResult s peer piece).1.done) : p = piece ∨ p ∈ s.done := by
  simp only [putResult] at hp
  split at hp
  · split at hp
    · exact Or.inr hp
    · rcases List.mem_append.mp hp with h | h
      · exact Or.inr h
      · exact Or.inl (by simpa using h)
  · exact Or.inr hp

/-! ## C10: put_work on an unassigned peer -/

/-- C10 (amended): when `peer ∉ assigned[work]`, `put_work` raises
(`ValueError` from `list.remove`), and at the raise point the piece is in
the queue — the `queue.add` has already executed, so the operation is not
atomic and the state is left changed whenever the piece was not already
queued or had no `workers_per_work` entry.  (If it was already queued
with an entry, the failed call happens to leave the state unchanged; see
the counterexample.) -/
theorem c10_put_work_error (s : Swarm) (peer : PeerId) (work : Piece)
    (h : peer ∉ workersOf s.workers work) :
    (putWork s peer work).2 = true ∧
    work ∈ (putWork s peer work).1.queue ∧
    (putWork s peer work).1.done = s.done ∧
    ((work ∉ s.queue ∨ (∀ e ∈ s.workers, e.1 ≠ work)) → (putWork s peer work).1 ≠ s) := by
  have hl : workersOf (touchKey s.workers work) work = workersOf s.workers work :=
    workersOf_touchKey s.workers work work
  have herr : (putWork s peer work) =
      (⟨if work ∈ s.queue then s.queue else s.queue ++ [work], s.done,
        touchKey s.workers work⟩, true) := by
    simp only [putWork]
    rw [hl, if_neg h]
  rw [herr]
  refine ⟨rfl, ?_, rfl, ?_⟩
  · by_cases hq : work ∈ s.queue
    · simp [hq]
    · simp [hq]
  · intro hcase heq
    rcases hcase with hq | hk
    · have := congrArg Swarm.queue heq
      simp only [if_neg hq] at this
      have : work ∈ s.queue := by
        rw [← this]
        simp
      exact hq this
    · have := congrArg Swarm.workers heq
      simp only [touchKey] at this
      rw [if_neg (by
        simp only [List.any_eq_true, not_exists]
        intro e
        simp only [beq_iff_eq, not_and]
        intro he
        exact fun hh => hk e he hh)] at this
      have hlen := congrArg List.length this
      simp at hlen

/-- Witness for C10 at a state where the piece is neither queued nor a
key, with an unassigned peer. -/
theorem c10_put_work_error_witness :
    (0 : PeerId) ∉ workersOf ([] : List (Piece × List PeerId)) ⟨0, 1, [0]⟩ ∧
    ((putWork ⟨[], [], []⟩ 0 ⟨0, 1, [0]⟩).2 = true ∧
     (⟨0, 1, [0]⟩ : Piece) ∈ (putWork ⟨[], [], []⟩ 0 ⟨0, 1, [0]⟩).1.queue ∧
     (putWork ⟨[], [], []⟩ 0 ⟨0, 1, [0]⟩).1.done = (⟨[], [], []⟩ : Swarm).done ∧
     ((⟨0, 1, [0]⟩ : Piece) ∉ (⟨[], [], []⟩ : Swarm).queue ∨
        (∀ e ∈ (⟨[], [], []⟩ : Swarm).workers, e.1 ≠ ⟨0, 1, [0]⟩) →
      (putWork ⟨[], [], []⟩ 0 ⟨0, 1, [0]⟩).1 ≠ ⟨[], [], []⟩)) :=
  ⟨by decide, c10_put_work_error ⟨[], [], []⟩ 0 ⟨0, 1, [0]⟩ (by decide)⟩

/-- C10 counterexample to "the swarm state is not left unchanged on
error": with the piece already in the queue and owning an (empty)
`workers_per_work` entry, the failed `put_work` raises but leaves the
swarm state exactly as it was. -/
theorem c10_put_work_unchanged_counterexample :
    (putWork ⟨[⟨0, 1, [0]⟩], [], [(⟨0, 1, [0]⟩, [])]⟩ 7 ⟨0, 1, [0]⟩).2 = true ∧
    (putWork ⟨[⟨0, 1, [0]⟩], [], [(⟨0, 1, [0]⟩, [])]⟩ 7 ⟨0, 1, [0]⟩).1 =
      ⟨[⟨0, 1, [0]⟩], [], [(⟨0, 1, [0]⟩, [])]⟩ := by
  constructor
  · rfl
  · rfl

/-! ## C5: done/queue disjointness -/

/-- C5 (amended): `get_work` and `put_result` preserve the disjointness
of `done` and `queue`; `put_work` preserves it only when the returned
piece is not already done — `put_work` unconditionally re-adds its piece
to the queue, so calling it on a piece in `done` (e.g. from a cancelled
worker after another peer completed the piece) puts that piece in both
sets (see the counterexample). -/
theorem c5_disjointness_preserved (s : Swarm) (hdisj : ∀ p ∈ s.done, p ∉ s.queue) :
    (∀ peer cap bf k, ∀ p ∈ (getWork s peer cap bf k).2.done,
       p ∉ (getWork s peer cap bf k).2.queue) ∧
    (∀ peer piece, ∀ p ∈ (putResult s peer piece).1.done,
       p ∉ (putResult s peer piece).1.queue) ∧
    (∀ peer w, w ∉ s.done → ∀ p ∈ (putWork s peer w).1.done,
       p ∉ (putWork s peer w).1.queue) := by
  refine ⟨?_, ?_, ?_⟩
  · intro peer cap bf k p hp hq
    rw [getWork_done] at hp
    exact hdisj p hp (getWork_queue_subset s peer cap bf k p hq)
  · intro peer piece p hp hq
    rw [putResult_queue] at hq
    have hmem := List.mem_filter.mp hq
    rcases putResult_done_sub s peer piece p hp with h | h
    · exact absurd h (by simpa using hmem.2)
    · exact hdisj p h hmem.1
  · intro peer w hw p hp hq
    rw [putWork_done] at hp
    rw [putWork_queue] at hq
    split at hq
    · exact hdisj p hp hq
    · rcases List.mem_append.mp hq with h | h
      · exact hdisj p hp h
      · have hpw : p = w := by simpa using h
        exact hw (hpw ▸ hp)

/-- Witness for C5 at a one-piece fresh swarm. -/
theorem c5_disjointness_preserved_witness :
    (∀ p ∈ (⟨[⟨0, 1, [0]⟩], [], []⟩ : Swarm).done, p ∉ (⟨[⟨0, 1, [0]⟩], [], []⟩ : Swarm).queue) ∧
    ((∀ peer cap bf k, ∀ p ∈ (getWork ⟨[⟨0, 1, [0]⟩], [], []⟩ peer cap bf k).2.done,
        p ∉ (getWork ⟨[⟨0, 1, [0]⟩], [], []⟩ peer cap bf k).2.queue) ∧
     (∀ peer piece, ∀ p ∈ (putResult ⟨[⟨0, 1, [0]⟩], [], []⟩ peer piece).1.done,
        p ∉ (putResult ⟨[⟨0, 1, [0]⟩], [], []⟩ peer piece).1.queue) ∧
     (∀ peer w, w ∉ (⟨[⟨0, 1, [0]⟩], [], []⟩ : Swarm).done →
        ∀ p ∈ (putWork ⟨[⟨0, 1, [0]⟩], [], []⟩ peer w).1.done,
          p ∉ (putWork ⟨[⟨0, 1, [0]⟩], [], []⟩ peer w).1.queue)) :=
  ⟨by simp, c5_disjointness_preserved ⟨[⟨0, 1, [0]⟩], [], []⟩ (by simp)⟩

/-- C5 counterexample: starting from the fresh one-piece swarm, the
coordinator-operation sequence `put_result(1, p)` then `put_work(2, p)`
reaches a state with `p` in both `done` and `queue` — `put_work` does not
preserve the disjointness invariant. -/
theorem c5_disjointness_counterexample :
    (⟨0, 1, [0]⟩ : Piece) ∈
      (putWork (putResult ⟨[⟨0, 1, [0]⟩], [], []⟩ 1 ⟨0, 1, [0]⟩).1 2 ⟨0, 1, [0]⟩).1.done ∧
    (⟨0, 1, [0]⟩ : Piece) ∈
      (putWork (putResult ⟨[⟨0, 1, [0]⟩], [], []⟩ 1 ⟨0, 1, [0]⟩).1 2 ⟨0, 1, [0]⟩).1.queue := by
  constructor
  · decide
  · decide

/-! ## C2: put_result idempotence per piece -/

/-- C2: with `P` not yet done and (for the first call to traverse its
cancellation loop without the `worker.cancel()` `AttributeError`) every
recorded worker of `P` equal to the delivering peer `A`, the call
`put_result(A, P)` moves `P` into `done`, and a second call
`put_result(B, P)` is ignored: `done` and `queue` are unchanged by it,
`|done|` advances by exactly 1 across the two calls, and `assigned[P]`
is empty after both calls. -/
theorem putResult_success (s : Swarm) (peer : PeerId) (piece : Piece)
    (hall : ∀ w ∈ workersOf s.workers piece, w = peer) :
    (putResult s peer piece).1 =
      ⟨s.queue.filter (fun q => q ≠ piece),
       if piece ∈ s.done then s.done else s.done ++ [piece],
       delKey (touchKey s.workers piece) piece⟩ := by
  simp only [putResult]
  rw [if_pos]
  rw [workersOf_touchKey, List.all_eq_true]
  intro w hw
  simpa using hall w hw

theorem c2_put_result_idempotent (s : Swarm) (A B : PeerId) (P : Piece)
    (hP : P ∉ s.done) (hA : ∀ w ∈ workersOf s.workers P, w = A) :
    (putResult s A P).1.done = s.done ++ [P] ∧
    (putResult (putResult s A P).1 B P).1.done = (putResult s A P).1.done ∧
    (putResult (putResult s A P).1 B P).1.queue = (putResult s A P).1.queue ∧
    (putResult (putResult s A P).1 B P).1.done.length = s.done.length + 1 ∧
    workersOf (putResult s A P).1.workers P = [] ∧
    workersOf (putResult (putResult s A P).1 B P).1.workers P = [] := by
  have h1 : (putResult s A P).1 =
      ⟨s.queue.filter (fun q => q ≠ P), s.done ++ [P], delKey (touchKey s.workers P) P⟩ := by
    rw [putResult_success s A P hA, if_neg hP]
  have hW1 : workersOf (putResult s A P).1.workers P = [] := by
    rw [h1]
    exact workersOf_delKey _ P
  have hB : ∀ w ∈ workersOf (putResult s A P).1.workers P, w = B := by
    rw [hW1]
    intro w hw
    simp at hw
  have hPd : P ∈ (putResult s A P).1.done := by
    rw [h1]
    simp
  have h2 : (putResult (putResult s A P).1 B P).1 =
      ⟨(putResult s A P).1.queue.filter (fun q => q ≠ P), (putResult s A P).1.done,
        delKey (touchKey (putResult s A P).1.workers P) P⟩ := by
    rw [putResult_success (putResult s A P).1 B P hB, if_pos hPd]
  have hq2 : (putResult s A P).1.queue.filter (fun q => q ≠ P) = (putResult s A P).1.queue := by
    apply List.filter_eq_self.mpr
    intro a ha
    rw [h1] at ha
    have := List.of_mem_filter ha
    simpa using this
  refine ⟨by rw [h1], by rw [h2], by rw [h2]; exact hq2, ?_, hW1, ?_⟩
  · rw [h2, h1]
    simp
  · rw [h2]
    exact workersOf_delKey _ P

/-- Witness for C2: a swarm whose piece is assigned to `A = 1` only;
second delivery by `B = 2`. -/
theorem c2_put_result_idempotent_witness :
    ((⟨0, 1, [0]⟩ : Piece) ∉ (⟨[⟨0, 1, [0]⟩], [], [(⟨0, 1, [0]⟩, [1])]⟩ : Swarm).done ∧
     ∀ w ∈ workersOf [(⟨0, 1, [0]⟩, [1])] ⟨0, 1, [0]⟩, w = 1) ∧
    ((putResult ⟨[⟨0, 1, [0]⟩], [], [(⟨0, 1, [0]⟩, [1])]⟩ 1 ⟨0, 1, [0]⟩).1.done = [] ++ [⟨0, 1, [0]⟩] ∧
     (putResult (putResult ⟨[⟨0, 1, [0]⟩], [], [(⟨0, 1, [0]⟩, [1])]⟩ 1 ⟨0, 1, [0]⟩).1 2 ⟨0, 1, [0]⟩).1.done =
       (putResult ⟨[⟨0, 1, [0]⟩], [], [(⟨0, 1, [0]⟩, [1])]⟩ 1 ⟨0, 1, [0]⟩).1.done ∧
     (putResult (putResult ⟨[⟨0, 1, [0]⟩], [], [(⟨0, 1, [0]⟩, [1])]⟩ 1 ⟨0, 1, [0]⟩).1 2 ⟨0, 1, [0]⟩).1.queue =
       (putResult ⟨[⟨0, 1, [0]⟩], [], [(⟨0, 1, [0]⟩, [1])]⟩ 1 ⟨0, 1, [0]⟩).1.queue ∧
     (putResult (putResult ⟨[⟨0, 1, [0]⟩], [], [(⟨0, 1, [0]⟩, [1])]⟩ 1 ⟨0, 1, [0]⟩).1 2 ⟨0, 1, [0]⟩).1.done.length =
       ([] : List Piece).length + 1 ∧
     workersOf (putResult ⟨[⟨0, 1, [0]⟩], [], [(⟨0, 1, [0]⟩, [1])]⟩ 1 ⟨0, 1, [0]⟩).1.workers ⟨0, 1, [0]⟩ = [] ∧
     workersOf (putResult (putResult ⟨[⟨0, 1, [0]⟩], [], [(⟨0, 1, [0]⟩, [1])]⟩ 1 ⟨0, 1, [0]⟩).1 2 ⟨0, 1, [0]⟩).1.workers
       ⟨0, 1, [0]⟩ = []) :=
  ⟨⟨by decide, by decide⟩,
   c2_put_result_idempotent ⟨[⟨0, 1, [0]⟩], [], [(⟨0, 1, [0]⟩, [1])]⟩ 1 2 ⟨0, 1, [0]⟩
     (by decide) (by decide)⟩

/-! ## C3: what get_work may return -/

theorem get?_mod_none {α : Type} (l : List α) (k : Nat)
    (h : l.get? (k % l.length) = none) : l = [] := by
  cases l with
  | nil => rfl
  | cons a t =>
      rw [List.get?_eq_none] at h
      have hpos : 0 < (a :: t).length := by simp
      have hlt := Nat.mod_lt k hpos
      omega

/-- C3 (amended): when some queue piece passes the bitfield-and-capacity
filter, `get_work` returns such a piece; otherwise it falls back to any
`workers_per_work` key with fewer than `cap` workers — ignoring both the
bitfield and queue membership — and returns `None` only when that
fallback is empty too (in which case every recorded assignment list is
at capacity). -/
theorem c3_get_work_candidates (s : Swarm) (peer : PeerId) (cap : Nat) (bf : List Nat)
    (k : Nat) (hwf : (s.workers.map (fun e => e.1)).Nodup) :
    (∀ p, (getWork s peer cap bf k).1 = some p →
       (p ∈ s.queue ∧ bfCond bf p = true ∧ (workersOf s.workers p).length < cap) ∨
       ((∀ q ∈ s.queue, ¬(bfCond bf q = true ∧ (workersOf s.workers q).length < cap)) ∧
        (workersOf s.workers p).length < cap ∧
        (p ∈ s.queue ∨ p ∈ s.workers.map (fun e => e.1)))) ∧
    ((getWork s peer cap bf k).1 = none →
       (∀ q ∈ s.queue, ¬(bfCond bf q = true ∧ (workersOf s.workers q).length < cap)) ∧
       (∀ e ∈ s.workers, ¬e.2.length < cap)) := by
  constructor
  · intro p hp
    simp only [getWork] at hp
    split at hp
    · next w hw =>
      rw [Option.some_inj] at hp
      subst hp
      left
      have hmem := List.get?_mem hw
      have hf := List.mem_filter.mp hmem
      have hc := hf.2
      rw [Bool.and_eq_true, decide_eq_true_eq] at hc
      exact ⟨hf.1, hc.1, hc.2⟩
    · next hq0 =>
      split at hp
      · next w hw =>
        rw [Option.some_inj] at hp
        subst hp
        right
        have hnil := get?_mod_none _ _ hq0
        have hqall : ∀ q ∈ s.queue, ¬(bfCond bf q = true ∧ (workersOf s.workers q).length < cap) := by
          intro q hq hc
          have : q ∈ s.queue.filter
              (fun w => bfCond bf w && decide ((workersOf s.workers w).length < cap)) :=
            List.mem_filter.mpr ⟨hq, by rw [Bool.and_eq_true, decide_eq_true_eq]; exact hc⟩
          rw [hnil] at this
          simp at this
        refine ⟨hqall, ?_⟩
        have hmem := List.get?_mem hw
        rcases List.mem_map.mp hmem with ⟨e, he, hep⟩
        have hef := List.mem_filter.mp he
        have hcap : e.2.length < cap := by simpa using hef.2
        rcases mem_foldl_touchKey _ _ _ hef.1 with hold | hnew
        · rw [← hep, workersOf_of_mem s.workers e.1 e.2 hold hwf]
          exact ⟨hcap, Or.inr (List.mem_map.mpr ⟨e, hold, rfl⟩)⟩
        · have hwnil : workersOf s.workers w = [] := by
            apply workersOf_eq_nil_of_no_key
            intro x hx
            rw [← hep]
            exact hnew.2.2 x hx
          rw [hwnil]
          have hq2 : w ∈ s.queue := by
            have h3 := hnew.2.1
            rw [hep] at h3
            exact (List.mem_filter.mp h3).1
          rw [hnew.1] at hcap
          exact ⟨hcap, Or.inl hq2⟩
      · simp at hp
  · intro hp
    simp only [getWork] at hp
    split at hp
    · simp at hp
    · next hq0 =>
      split at hp
      · simp at hp
      · next hf0 =>
        have hnil := get?_mod_none _ _ hq0
        have hfnil := get?_mod_none _ _ hf0
        constructor
        · intro q hq hc
          have : q ∈ s.queue.filter
              (fun w => bfCond bf w && decide ((workersOf s.workers w).length < cap)) :=
            List.mem_filter.mpr ⟨hq, by rw [Bool.and_eq_true, decide_eq_true_eq]; exact hc⟩
          rw [hnil] at this
          simp at this
        · intro e he hcap
          rw [List.map_eq_nil_iff, List.filter_eq_nil_iff] at hfnil
          exact hfnil e (self_subset_foldl_touchKey _ _ _ he) (by simpa using hcap)

/-- Witness for C3 at a fresh one-piece swarm with an empty bitfield. -/
theorem c3_get_work_candidates_witness :
    ((([(⟨0, 1, [0]⟩, [1])] : List (Piece × List PeerId)).map (fun e => e.1)).Nodup ∧
     (getWork ⟨[], [], [(⟨0, 1, [0]⟩, [1])]⟩ 2 5 [] 0).1 = some ⟨0, 1, [0]⟩) ∧
    ((∀ p, (getWork ⟨[], [], [(⟨0, 1, [0]⟩, [1])]⟩ 2 5 [] 0).1 = some p →
       (p ∈ (⟨[], [], [(⟨0, 1, [0]⟩, [1])]⟩ : Swarm).queue ∧ bfCond [] p = true ∧
          (workersOf [(⟨0, 1, [0]⟩, [1])] p).length < 5) ∨
       ((∀ q ∈ (⟨[], [], [(⟨0, 1, [0]⟩, [1])]⟩ : Swarm).queue,
           ¬(bfCond [] q = true ∧ (workersOf [(⟨0, 1, [0]⟩, [1])] q).length < 5)) ∧
        (workersOf [(⟨0, 1, [0]⟩, [1])] p).length < 5 ∧
        (p ∈ (⟨[], [], [(⟨0, 1, [0]⟩, [1])]⟩ : Swarm).queue ∨
           p ∈ ([(⟨0, 1, [0]⟩, [1])] : List (Piece × List PeerId)).map (fun e => e.1)))) ∧
     ((getWork ⟨[], [], [(⟨0, 1, [0]⟩, [1])]⟩ 2 5 [] 0).1 = none →
       (∀ q ∈ (⟨[], [], [(⟨0, 1, [0]⟩, [1])]⟩ : Swarm).queue,
          ¬(bfCond [] q = true ∧ (workersOf [(⟨0, 1, [0]⟩, [1])] q).length < 5)) ∧
       (∀ e ∈ ([(⟨0, 1, [0]⟩, [1])] : List (Piece × List PeerId)), ¬e.2.length < 5))) :=
  ⟨⟨by decide, by decide⟩,
   c3_get_work_candidates ⟨[], [], [(⟨0, 1, [0]⟩, [1])]⟩ 2 5 [] 0 (by simp)⟩

/-- C3 counterexample: with an empty queue and piece `p` assigned to
worker 1 (1 < cap = 5), `get_work` returns `p` — a piece that is not in
the queue — instead of returning `None`, refuting both "returns only a
piece in queue" and "returns None whenever no piece in queue satisfies
the conditions". -/
theorem c3_get_work_counterexample :
    (getWork ⟨[], [], [(⟨0, 1, [0]⟩, [1])]⟩ 2 5 [] 0).1 = some ⟨0, 1, [0]⟩ ∧
    (⟨[], [], [(⟨0, 1, [0]⟩, [1])]⟩ : Swarm).queue = [] := by
  constructor
  · decide
  · rfl

/-! ## C4: duplicate assignment and the absent end-game threshold -/

/-- C4 (amended): `get_work` never consults `done` — there is no
`⌈θ · piece_count⌉` end-game threshold in the code.  Its returned piece
and its effect on `queue` and `workers_per_work` are identical for any
two values of `done`; duplicate assignment is gated only on the queue
candidate list being empty (see the counterexample, which reaches a
doubly-assigned piece with `|done| = 0`). -/
theorem c4_get_work_ignores_done (q d d' : List Piece) (w : List (Piece × List PeerId))
    (peer : PeerId) (cap : Nat) (bf : List Nat) (k : Nat) :
    (getWork ⟨q, d, w⟩ peer cap bf k).1 = (getWork ⟨q, d', w⟩ peer cap bf k).1 ∧
    (getWork ⟨q, d, w⟩ peer cap bf k).2.queue = (getWork ⟨q, d', w⟩ peer cap bf k).2.queue ∧
    (getWork ⟨q, d, w⟩ peer cap bf k).2.workers = (getWork ⟨q, d', w⟩ peer cap bf k).2.workers := by
  simp only [getWork]
  generalize (q.filter (fun x => bfCond bf x && decide ((workersOf w x).length < cap))).get?
      (k % (q.filter (fun x => bfCond bf x && decide ((workersOf w x).length < cap))).length) = o1
  cases o1 with
  | some w0 => exact ⟨rfl, rfl, rfl⟩
  | none =>
      generalize ((((q.filter (bfCond bf)).foldl touchKey w).filter
          (fun e => decide (e.2.length < cap))).map (fun e => e.1)).get?
          (k % ((((q.filter (bfCond bf)).foldl touchKey w).filter
            (fun e => decide (e.2.length < cap))).map (fun e => e.1)).length) = o2
      cases o2 with
      | some w1 => exact ⟨rfl, rfl, rfl⟩
      | none => exact ⟨rfl, rfl, rfl⟩

/-- C4 counterexample: from the fresh two-piece swarm, three `get_work`
calls (workers 1, 2, 3; empty bitfields, `cap = 5`) leave piece
`⟨0, 1, [0]⟩` assigned to the two workers 1 and 3 simultaneously while
`done` is empty — duplicate assignment with `|done| = 0`, strictly below
the claimed threshold `⌈0.9 · 2⌉ = 2`. -/
theorem c4_duplicate_assignment_counterexample :
    workersOf (getWork (getWork (getWork ⟨[⟨0, 1, [0]⟩, ⟨1, 1, [1]⟩], [], []⟩
        1 5 [] 0).2 2 5 [] 0).2 3 5 [] 0).2.workers ⟨0, 1, [0]⟩ = [1, 3] ∧
    (getWork (getWork (getWork ⟨[⟨0, 1, [0]⟩, ⟨1, 1, [1]⟩], [], []⟩
        1 5 [] 0).2 2 5 [] 0).2 3 5 [] 0).2.done = [] ∧
    ([] : List Piece).length < 2 := by
  refine ⟨by decide, by decide, by decide⟩

/-! ## C1: hash verification before delivery, and the done invariant -/

theorem dlDispatch_putResult_hash (work : Piece) (maxBatch : Nat)
    (sha1 : List Nat → List Nat) (msgId : Int) (payload : List Nat) (st : DlState)
    (d : List Nat)
    (hm : Event.putResultEv d ∈ (dlDispatch work maxBatch sha1 msgId payload st).1) :
    sha1 d = work.sha1 := by
  simp only [dlDispatch] at hm
  split_ifs at hm <;> simp_all

theorem dlStep_putResult_hash (work : Piece) (chunk maxBatch : Nat)
    (sha1 : List Nat → List Nat) (msgId : Int) (payload : List Nat) (cancelNow : Bool)
    (st : DlState) (d : List Nat)
    (hm : Event.putResultEv d ∈ (dlStep work chunk maxBatch sha1 msgId payload cancelNow st).1) :
    sha1 d = work.sha1 := by
  simp only [dlStep] at hm
  rcases hd : dlDispatch work maxBatch sha1 msgId payload st with ⟨evs, st1⟩
  rw [hd] at hm
  have hevs : Event.putResultEv d ∈ evs → sha1 d = work.sha1 := by
    intro h
    exact dlDispatch_putResult_hash work maxBatch sha1 msgId payload st d (by rw [hd]; exact h)
  cases st1 with
  | none => exact hevs hm
  | some st2 =>
      dsimp only at hm
      split_ifs at hm
      · exact hevs hm
      · rcases List.mem_append.mp hm with h | h
        · exact hevs h
        · rcases List.mem_map.mp h with ⟨t, _, ht⟩
          simp at ht
      · exact hevs hm

theorem dlLoop_putResult_hash (work : Piece) (chunk maxBatch : Nat)
    (sha1 : List Nat → List Nat) :
    ∀ (msgs : List (Int × List Nat × Bool)) (st : DlState) (d : List Nat),
      Event.putResultEv d ∈ dlLoop work chunk maxBatch sha1 msgs st →
      sha1 d = work.sha1 := by
  intro msgs
  induction msgs with
  | nil => intro st d hm; simp [dlLoop] at hm
  | cons m rest ih =>
      intro st d hm
      obtain ⟨msgId, payload, cancelNow⟩ := m
      rw [dlLoop] at hm
      rcases hs : dlStep work chunk maxBatch sha1 msgId payload cancelNow st with ⟨evs, st1⟩
      rw [hs] at hm
      have hevs : Event.putResultEv d ∈ evs → sha1 d = work.sha1 := by
        intro h
        exact dlStep_putResult_hash work chunk maxBatch sha1 msgId payload cancelNow st d
          (by rw [hs]; exact h)
      cases st1 with
      | none => exact hevs hm
      | some st2 =>
          dsimp only at hm
          rcases List.mem_append.mp hm with h | h
          · exact hevs h
          · exact ih st2 d h

/-- C1: (1) a peer session delivers a buffer through `put_result` only
when the SHA1 of the assembled buffer equals the piece's expected
digest — every `putResultEv data` event of `Peer._download` satisfies
`sha1 data = work.sha1`; (2) consequently, in every swarm state reachable
by coordinator operations whose `put_result` deliveries are
hash-verified (which by (1) is what peer sessions supply), every piece in
`done` has a delivered byte string whose SHA1 equals its expected
digest. -/
theorem c1_hash_verified_delivery :
    (∀ (work : Piece) (chunk maxBatch : Nat) (sha1 : List Nat → List Nat)
       (msgs : List (Int × List Nat × Bool)) (choked0 : Bool) (bf0 : List Nat) (d : List Nat),
       Event.putResultEv d ∈ download work chunk maxBatch sha1 msgs choked0 bf0 →
       sha1 d = work.sha1) ∧
    (∀ (sha1 : List Nat → List Nat) (pieces : List Piece) (s : Swarm)
       (log : List (Piece × List Nat)), Reach sha1 pieces s log →
       ∀ p ∈ s.done, ∃ d, (p, d) ∈ log ∧ sha1 d = p.sha1) := by
  constructor
  · intro work chunk maxBatch sha1 msgs choked0 bf0 d hm
    simp only [download, List.mem_cons] at hm
    rcases hm with h | h | h
    · simp at h
    · simp at h
    · exact dlLoop_putResult_hash work chunk maxBatch sha1 msgs _ d h
  · intro sha1 pieces s log h
    induction h with
    | init => intro p hp; simp at hp
    | getw peer cap bf k h ih =>
        intro p hp
        rw [getWork_done] at hp
        exact ih p hp
    | putw peer w h ih =>
        intro p hp
        rw [putWork_done] at hp
        exact ih p hp
    | putr peer p0 dd h hs ih =>
        intro p hp
        rcases putResult_done_sub _ _ _ _ hp with h1 | h1
        · subst h1
          exact ⟨dd, by simp, hs⟩
        · rcases ih p h1 with ⟨d', hd1, hd2⟩
          exact ⟨d', List.mem_cons_of_mem _ hd1, hd2⟩

/-- Witness for C1: a one-byte piece delivered by a session run in which
the hash check succeeds (part 1), and a two-step reachable swarm whose
single done piece carries a hash-valid delivery (part 2). -/
theorem c1_hash_verified_delivery_witness :
    (Event.putResultEv [65] ∈ download ⟨0, 1, [7]⟩ 1 1 (fun _ => [7])
       [(1, [], false), (7, [0, 0, 0, 0, 0, 0, 0, 0, 65], false)] true [] ∧
     (fun _ => ([7] : List Nat)) [65] = (⟨0, 1, [7]⟩ : Piece).sha1) ∧
    (∀ p ∈ (putResult ⟨[⟨0, 1, [7]⟩], [], []⟩ 1 ⟨0, 1, [7]⟩).1.done,
       ∃ d, (p, d) ∈ [((⟨0, 1, [7]⟩ : Piece), ([65] : List Nat))] ∧
         (fun _ => ([7] : List Nat)) d = p.sha1) :=
  ⟨⟨by decide,
    c1_hash_verified_delivery.1 ⟨0, 1, [7]⟩ 1 1 (fun _ => [7])
      [(1, [], false), (7, [0, 0, 0, 0, 0, 0, 0, 0, 65], false)] true [] [65] (by decide)⟩,
   c1_hash_verified_delivery.2 (fun _ => [7]) [⟨0, 1, [7]⟩]
     (putResult ⟨[⟨0, 1, [7]⟩], [], []⟩ 1 ⟨0, 1, [7]⟩).1
     [((⟨0, 1, [7]⟩ : Piece), ([65] : List Nat))]
     (Reach.putr 1 ⟨0, 1, [7]⟩ [65] Reach.init rfl)⟩

end BT
